import Mathlib

/-!
Shallow embedding of the core of the `rail-distances-map` repository
(crate `raildata`): the `RailTime` clock arithmetic (`timetable.rs`),
the travel-graph builder (`travel_graph.rs`, `TravelGraph::new`) and the
time-dependent Dijkstra query engine (`travel_graph.rs`, module
`dijkstras`).  Rust `u32`/`usize` values are modelled as `Nat`; the
places where Rust overflow/underflow or an index panic is reachable are
modelled explicitly (`Option`, with `none` standing for a panic).
Strings are modelled as `List Char`.
-/

/-- `timetable.rs`: `RailTime` is seconds since 00:00 (a `u32`). -/
structure RailTime where
  secs : Nat
deriving DecidableEq, Repr

/-- `RailTime::new(hours, mins)`: `(hours*60*60 + mins*60) % (24*60*60)`. -/
def RailTime.new (hours mins : Nat) : RailTime :=
  ⟨(hours * 60 * 60 + mins * 60) % (24 * 60 * 60)⟩

/-- The guard of `TIME_FORMAT_REGEX = ^\d{2}\d{2}.?$` on a char list:
four digits, optionally followed by one character that is not a newline
(the `regex` crate's `.` does not match `\n`).  `\d` is modelled as an
ASCII digit (`Char.isDigit`). -/
def timeFormatMatch (cs : List Char) : Bool :=
  match cs with
  | [h1, h2, m1, m2] => h1.isDigit && h2.isDigit && m1.isDigit && m2.isDigit
  | [h1, h2, m1, m2, e] =>
      h1.isDigit && h2.isDigit && m1.isDigit && m2.isDigit && e != '\n'
  | _ => false

/-- Numeric value of an ASCII digit character. -/
def charVal (c : Char) : Nat := c.toNat - 48

/-- `RailTime::from_24h`: on a regex match, parse `timestr[0..2]` as the
hours and `timestr[2..4]` as the minutes; `secs = hrs*60*60 + mns*60`
with no reduction modulo a day. -/
def RailTime.from_24h (cs : List Char) : Option RailTime :=
  if timeFormatMatch cs then
    let hrs := 10 * charVal (cs.getD 0 '0') + charVal (cs.getD 1 '0')
    let mns := 10 * charVal (cs.getD 2 '0') + charVal (cs.getD 3 '0')
    some ⟨hrs * 60 * 60 + mns * 60⟩
  else
    none

/-- Zero-padded two-digit rendering, as Rust's `format!("{:02}", n)`. -/
def pad2 (n : Nat) : List Char :=
  if n < 10 then ['0', Nat.digitChar n] else Nat.toDigits 10 n

/-- `RailTime::to_24h`: `format!("{:02}{:02}", hrs, mins)` with
`a = secs % 3600`, `hrs = (secs - a)/3600`, `b = a % 60`,
`mins = (a - b)/60`. -/
def RailTime.to_24h (t : RailTime) : List Char :=
  let a := t.secs % (60 * 60)
  let hrs := (t.secs - a) / (60 * 60)
  let b := a % 60
  let mins := (a - b) / 60
  pad2 hrs ++ pad2 mins

/-- `RailTime::timetil`: seconds until `other`, wrapping into the next
day exactly when `self.secs > other.secs` (strict). -/
def RailTime.timetil (t other : RailTime) : Nat :=
  if t.secs > other.secs then
    other.secs + 24 * 60 * 60 - t.secs
  else
    other.secs - t.secs

/-- `RailTime::add`: `(secs + s) % 86400`. -/
def RailTime.add (t : RailTime) (s : Nat) : RailTime :=
  ⟨(t.secs + s) % (24 * 60 * 60)⟩

/-- `RailTime::sub`: wrapping subtraction of `s` seconds. -/
def RailTime.sub (t : RailTime) (s : Nat) : RailTime :=
  ⟨if s > t.secs then t.secs + 24 * 60 * 60 - s else t.secs - s⟩

example : RailTime.from_24h ['0', '0', '2', '5'] = some ⟨25 * 60⟩ := by decide
example : (RailTime.from_24h ['1', '3', '2', '5']).map
    (fun t => t.timetil ⟨14 * 3600 + 12 * 60⟩) = some (47 * 60) := by decide
example : (RailTime.new 23 55).timetil (RailTime.new 0 20) = 25 * 60 := by decide

/-- `stations.rs`: the one `Station` field the travel-graph builder
reads (`min_change_time`); the graph builder consumes the station list
only through `iter()` and `count()`. -/
structure Station where
  min_change_time : Nat
deriving DecidableEq, Repr

/-- `fixed_links.rs`: `FixedLinkKind`. -/
inductive FixedLinkKind where
  | Walk | Tube | Metro | Bus | Ferry | Transfer
deriving DecidableEq, Repr

namespace fixed_links

/-- `fixed_links.rs`: the undirected input `FixedLink`. -/
structure FixedLink where
  a : Nat
  b : Nat
  time : Nat
  kind : FixedLinkKind
deriving DecidableEq, Repr

end fixed_links

/-- `timetable.rs`: `Stop`. -/
structure Stop where
  station : Nat
  arrival : RailTime
  departure : RailTime
deriving DecidableEq, Repr

/-- `timetable.rs`: `Service` (the `train_uid` string plays no role in
the graph builder or the query engine and is dropped). -/
structure Service where
  id : Nat
  stops : List Stop
deriving DecidableEq, Repr

/-- `timetable.rs`: `Timetable`. -/
structure Timetable where
  services : List Service
deriving DecidableEq, Repr

/-- `travel_graph.rs`: `RailLink`. -/
structure RailLink where
  dst : Nat
  service : Nat
  depart : RailTime
  time : Nat
deriving DecidableEq, Repr

/-- `travel_graph.rs`: `FixedLink` (the directed graph edge, distinct
from the undirected input `fixed_links::FixedLink`). -/
structure FixedLink where
  dst : Nat
  time : Nat
  kind : FixedLinkKind
deriving DecidableEq, Repr

/-- `travel_graph.rs`: `Link`. -/
inductive Link where
  | Rail (rl : RailLink)
  | Fixed (fl : FixedLink)
  | Dummy
deriving DecidableEq, Repr

/-- `Link::service`. -/
def Link.service : Link → Option Nat
  | .Rail rl => some rl.service
  | _ => none

/-- `Link::ischange(self, other)`:
`self.service() != other.service() || self.service() == None`. -/
def Link.ischange (l other : Link) : Bool :=
  l.service != other.service || l.service == none

/-- `travel_graph.rs`: `Journey`. -/
structure Journey where
  origin : Nat
  depart : RailTime
  time : Nat
  links : List Link
deriving DecidableEq, Repr

/-- `travel_graph.rs`: `TGNode`. -/
structure TGNode where
  links : List Link
  transfer_time : Nat
deriving DecidableEq, Repr

/-- `travel_graph.rs`: `TravelGraph`. -/
structure TravelGraph where
  stations : List TGNode
deriving DecidableEq, Repr

/-- `graph.stations[i].links.push(l)`.  Rust panics when `i` is out of
bounds; `none` models the panic. -/
def pushLink (g : List TGNode) (i : Nat) (l : Link) : Option (List TGNode) :=
  if h : i < g.length then
    some (g.set i { g.get ⟨i, h⟩ with links := (g.get ⟨i, h⟩).links ++ [l] })
  else
    none

/-- The `for flink in fixedlinks` loop of `TravelGraph::new`: push the
`b`-directed copy onto `a`'s node, then the `a`-directed copy onto
`b`'s node. -/
def addFixedLinks : List TGNode → List fixed_links.FixedLink → Option (List TGNode)
  | g, [] => some g
  | g, fl :: rest =>
      match pushLink g fl.a (Link.Fixed ⟨fl.b, fl.time, fl.kind⟩) with
      | none => none
      | some g1 =>
          match pushLink g1 fl.b (Link.Fixed ⟨fl.a, fl.time, fl.kind⟩) with
          | none => none
          | some g2 => addFixedLinks g2 rest

/-- The consecutive stop pairs `(stops[i], stops[i+1])` of a service. -/
def stopPairs (stops : List Stop) : List (Stop × Stop) :=
  stops.zip stops.tail

/-- The inner `for i in 0..(stops.len() - 1)` loop of
`TravelGraph::new`: one rail edge per consecutive stop pair. -/
def addRailPairs (sid : Nat) : List TGNode → List (Stop × Stop) → Option (List TGNode)
  | g, [] => some g
  | g, (s1, s2) :: rest =>
      match pushLink g s1.station
        (Link.Rail ⟨s2.station, sid, s1.departure, s1.departure.timetil s2.arrival⟩) with
      | none => none
      | some g1 => addRailPairs sid g1 rest

/-- One service of the `for service in &timetable.services` loop.  For
an empty stop list Rust evaluates `service.stops.len() - 1` on a
`usize`: the subtraction underflows, so the loop bound wraps and the
first iteration indexes `stops[0]` of an empty vector — a panic either
way, modelled as `none`. -/
def addService (g : List TGNode) (sv : Service) : Option (List TGNode) :=
  match sv.stops with
  | [] => none
  | _ :: _ => addRailPairs sv.id g (stopPairs sv.stops)

/-- The service loop of `TravelGraph::new`. -/
def addServices : List TGNode → List Service → Option (List TGNode)
  | g, [] => some g
  | g, sv :: rest =>
      match addService g sv with
      | none => none
      | some g1 => addServices g1 rest

/-- `TravelGraph::new`.  `none` models a panic during construction. -/
def TravelGraph.new (stations : List Station)
    (fixedlinks : List fixed_links.FixedLink) (timetable : Timetable) :
    Option TravelGraph :=
  match addFixedLinks (stations.map
      (fun st => { links := [], transfer_time := st.min_change_time : TGNode }))
    fixedlinks with
  | none => none
  | some g1 =>
      match addServices g1 timetable.services with
      | none => none
      | some g2 => some ⟨g2⟩

/-- `std::u32::MAX`, the unreachable-time sentinel. -/
def u32MAX : Nat := 2 ^ 32 - 1

/-- `travel_graph.rs` (`mod dijkstras`): `ToVisit`. -/
structure ToVisit where
  station : Nat
  time : Nat
deriving DecidableEq, Repr

/-- The derived strict order of `impl Ord for ToVisit`: by `time`, tie
broken by `station`. -/
def ToVisit.lt (a b : ToVisit) : Bool :=
  a.time < b.time || (a.time == b.time && a.station < b.station)

/-- `BTreeSet::insert` on the queue, modelled as ordered insertion into
a sorted duplicate-free list (`Ord`-equality coincides with structural
equality for `ToVisit`, so an already-present element is kept once). -/
def tvInsert (x : ToVisit) : List ToVisit → List ToVisit
  | [] => [x]
  | y :: ys =>
      if x = y then y :: ys
      else if ToVisit.lt x y then x :: y :: ys
      else y :: tvInsert x ys

/-- `travel_graph.rs` (`mod dijkstras`): `BestJourney`. -/
structure BestJourney where
  time : Nat
  depart : RailTime
  last_station : Nat
  last_link : Link
deriving DecidableEq, Repr

/-- The record every station starts with in `TimeDijkstras::new`:
`time = u32::MAX`, `depart = RailTime::new(0, 0)`, `last_station = 0`,
`last_link = Dummy`. -/
def initBJ : BestJourney := ⟨u32MAX, ⟨0⟩, 0, Link.Dummy⟩

/-- `travel_graph.rs` (`mod dijkstras`): the `TimeDijkstras` state.
The sorted `visitq` list models the `BTreeSet<ToVisit>` (head = the
element `pop_first` removes). -/
structure TimeDijkstras where
  visitq : List ToVisit
  contingency : Nat
  nodes : List BestJourney
  origin : Nat
  flexi_depart : Nat
deriving DecidableEq, Repr

/-- `TimeDijkstras::new`. -/
def TimeDijkstras.new (station_count contingency : Nat) : TimeDijkstras :=
  ⟨[], contingency, List.replicate station_count initBJ, 0, 0⟩

/-- `TimeDijkstras::update_best`: overwrite the station's record and
enqueue `(station, time)`. -/
def update_best (st : TimeDijkstras) (station t : Nat) (depart : RailTime)
    (last : Nat) (link : Link) : TimeDijkstras :=
  { st with
    nodes := st.nodes.set station ⟨t, depart, last, link⟩,
    visitq := tvInsert ⟨station, t⟩ st.visitq }

/-- The `for link in &graph.stations[tovisit.station].links` loop of
`TimeDijkstras::visit_next`.  `curtime`, `lastlink` and the transfer
time `xfer` are read once before the loop.  On the first improving link
the best record is updated, `tovisit` is re-enqueued and the loop
returns early; with no improving link the state is returned unchanged. -/
def visitLinks (st : TimeDijkstras) (tv : ToVisit) (curtime : RailTime)
    (lastlink : Link) (xfer : Nat) : List Link → TimeDijkstras
  | [] => st
  | l :: rest =>
      match l with
      | Link.Rail rlink =>
          let chngtime := if lastlink.ischange l then xfer + st.contingency else 0
          let waittime :=
            if tv.station == st.origin &&
                curtime.timetil rlink.depart < st.flexi_depart then
              0
            else
              chngtime + (curtime.add chngtime).timetil rlink.depart
          let dsttime := tv.time + waittime + rlink.time
          if dsttime < (st.nodes.getD rlink.dst initBJ).time then
            let st1 := update_best st rlink.dst dsttime
              (rlink.depart.add rlink.time) tv.station l
            { st1 with visitq := tvInsert tv st1.visitq }
          else
            visitLinks st tv curtime lastlink xfer rest
      | Link.Fixed flink =>
          let dsttime := tv.time + flink.time
          if dsttime < (st.nodes.getD flink.dst initBJ).time then
            let st1 := update_best st flink.dst dsttime
              (curtime.add flink.time) tv.station l
            { st1 with visitq := tvInsert tv st1.visitq }
          else
            visitLinks st tv curtime lastlink xfer rest
      | Link.Dummy => visitLinks st tv curtime lastlink xfer rest

/-- `TimeDijkstras::visit_next`. -/
def visit_next (g : TravelGraph) (st : TimeDijkstras) (tv : ToVisit) :
    TimeDijkstras :=
  let best := st.nodes.getD tv.station initBJ
  let node := g.stations.getD tv.station ⟨[], 0⟩
  visitLinks st tv best.depart best.last_link node.transfer_time node.links

/-- The `while let Some(tovisit) = self.visitq.pop_first()` loop of
`TimeDijkstras::perform`, with explicit fuel (the Rust loop runs until
the queue empties).  `none` models the `assert_eq!(tovisit.time,
self.nodes[tovisit.station].time)` firing; exhausted fuel returns the
current state. -/
def dloop (g : TravelGraph) : Nat → TimeDijkstras → Option TimeDijkstras
  | 0, st => some st
  | fuel + 1, st =>
      match st.visitq with
      | [] => some st
      | tv :: rest =>
          let st1 := { st with visitq := rest }
          if tv.time ≤ (st1.nodes.getD tv.station initBJ).time then
            if tv.time = (st1.nodes.getD tv.station initBJ).time then
              dloop g fuel (visit_next g st1 tv)
            else
              none
          else
            dloop g fuel st1

/-- `TimeDijkstras::perform`: clear the queue, seed the origin record
`{time = 0, depart = start_time, last_station = start_station,
last_link = Dummy}` and `(start_station, 0)`, then run the loop. -/
def TimeDijkstras.perform (g : TravelGraph) (st : TimeDijkstras)
    (start_station : Nat) (start_time : RailTime) (flexi_depart fuel : Nat) :
    Option TimeDijkstras :=
  let st1 := { st with
    visitq := [⟨start_station, 0⟩],
    nodes := st.nodes.set start_station ⟨0, start_time, start_station, Link.Dummy⟩,
    origin := start_station,
    flexi_depart := flexi_depart }
  dloop g fuel st1

/-- The search state `compute_journeys` builds:
`TimeDijkstras::new(self.stations.len(), contingency)` followed by
`perform`. -/
def computeState (g : TravelGraph) (contingency origin : Nat)
    (t0 : RailTime) (flexi fuel : Nat) : Option TimeDijkstras :=
  TimeDijkstras.perform g (TimeDijkstras.new g.stations.length contingency)
    origin t0 flexi fuel

/-- The body of the backtracking loop of `best_journey` that pushes
(or coalesces into) the accumulated link list.  `acc` holds the links
most-recent-first, which is exactly the order the Rust code obtains
after its final `links.reverse()`. -/
def coalesce (acc : List Link) (l : Link) : List Link :=
  match acc, l with
  | Link.Rail rlast :: tl, Link.Rail rnext =>
      if rlast.service == rnext.service then
        Link.Rail { rlast with depart := rnext.depart,
                               time := rlast.time + rnext.time } :: tl
      else
        l :: acc
  | _, _ => l :: acc

/-- The `while best.last_link != Link::Dummy` loop of
`TimeDijkstras::best_journey`, with explicit fuel.  Returns the
accumulated links, the running departure clock and the final record
(whose `last_station` is the journey's origin). -/
def backtrack (st : TimeDijkstras) :
    Nat → List Link → RailTime → BestJourney → List Link × RailTime × BestJourney
  | 0, acc, depart, best => (acc, depart, best)
  | fuel + 1, acc, depart, best =>
      if best.last_link = Link.Dummy then
        (acc, depart, best)
      else
        let acc1 := coalesce acc best.last_link
        let depart1 :=
          match best.last_link with
          | Link.Rail rl => rl.depart
          | Link.Fixed fl => depart.sub fl.time
          | Link.Dummy => depart
        backtrack st fuel acc1 depart1 (st.nodes.getD best.last_station initBJ)

/-- `TimeDijkstras::best_journey`. -/
def TimeDijkstras.best_journey (st : TimeDijkstras) (bfuel destination : Nat) :
    Journey :=
  let best := st.nodes.getD destination initBJ
  let r := backtrack st bfuel [] best.depart best
  ⟨r.2.2.last_station, r.2.1, best.time, r.1⟩

/-- `TravelGraph::compute_journeys`: run the search, then extract one
journey per destination in input order. -/
def TravelGraph.compute_journeys (g : TravelGraph) (depart : RailTime)
    (origin : Nat) (destinations : List Nat)
    (contingency flexi_depart fuel bfuel : Nat) : Option (List Journey) :=
  (computeState g contingency origin depart flexi_depart fuel).map
    (fun st => destinations.map (st.best_journey bfuel))

/-- The adjacency node of station `u` (`graph.stations[u]`). -/
def nodeOf (g : TravelGraph) (u : Nat) : TGNode :=
  g.stations.getD u ⟨[], 0⟩

/-- The running state while walking a path link by link: current
station, accumulated seconds, departure clock and predecessor link —
the same data `visit_next` relaxes with. -/
structure PathState where
  station : Nat
  time : Nat
  clock : RailTime
  lastlink : Link
deriving DecidableEq, Repr

/-- The cost of following one link of a path, using exactly the
change-cost/wait/arrival formulas of `TimeDijkstras::visit_next`
(the §4.E relaxation rules).  `none` when the link is not an edge of
the current station (invalid path) or is `Dummy`. -/
def relaxCost (g : TravelGraph) (cont flexi origin : Nat) (ps : PathState)
    (l : Link) : Option PathState :=
  if l ∈ (nodeOf g ps.station).links then
    match l with
    | Link.Rail r =>
        let chngtime :=
          if ps.lastlink.ischange l then (nodeOf g ps.station).transfer_time + cont
          else 0
        let waittime :=
          if ps.station == origin && ps.clock.timetil r.depart < flexi then 0
          else chngtime + (ps.clock.add chngtime).timetil r.depart
        some ⟨r.dst, ps.time + waittime + r.time, r.depart.add r.time, l⟩
    | Link.Fixed f => some ⟨f.dst, ps.time + f.time, ps.clock.add f.time, l⟩
    | Link.Dummy => none
  else
    none

/-- The total §4.E cost of a path (a list of graph links) followed from
the origin with accumulated time `0`, clock `t0` and predecessor
`Dummy` — the initial state `perform` seeds at the origin. -/
def pathCost (g : TravelGraph) (cont flexi origin : Nat) (t0 : RailTime)
    (p : List Link) : Option PathState :=
  p.foldlM (relaxCost g cont flexi origin) ⟨origin, 0, t0, Link.Dummy⟩

/-- C1 counterexample graph.  Station 0 is the origin; two services
leave it for station 1 at 00:00: service 0 ("A", 1800 s) and service 1
("B", 1200 s).  Service 0 continues from station 1 at 00:30 towards
station 2 (600 s).  Station 1 has a 3600 s interchange time. -/
def cexG : TravelGraph :=
  ⟨[⟨[Link.Rail ⟨1, 0, RailTime.new 0 0, 1800⟩,
      Link.Rail ⟨1, 1, RailTime.new 0 0, 1200⟩], 0⟩,
    ⟨[Link.Rail ⟨2, 0, RailTime.new 0 30, 600⟩], 3600⟩,
    ⟨[], 0⟩]⟩

/-- The alternative path: board service 0 at the origin and stay on it
through station 1 to station 2. -/
def cexPath : List Link :=
  [Link.Rail ⟨1, 0, RailTime.new 0 0, 1800⟩,
   Link.Rail ⟨2, 0, RailTime.new 0 30, 600⟩]

-- Sanity check mirroring `test_simple_graph` in `travel_graph.rs`.
example :
    TravelGraph.new [⟨0⟩, ⟨0⟩]
      [⟨0, 1, 5 * 60, FixedLinkKind.Bus⟩]
      ⟨[⟨0, [⟨0, RailTime.new 0 0, RailTime.new 0 0⟩,
             ⟨1, RailTime.new 1 0, RailTime.new 1 0⟩]⟩,
        ⟨1, [⟨1, RailTime.new 1 10, RailTime.new 1 10⟩,
             ⟨0, RailTime.new 2 15, RailTime.new 2 15⟩]⟩]⟩ =
    some ⟨[⟨[Link.Fixed ⟨1, 5 * 60, FixedLinkKind.Bus⟩,
             Link.Rail ⟨1, 0, RailTime.new 0 0, 60 * 60⟩], 0⟩,
           ⟨[Link.Fixed ⟨0, 5 * 60, FixedLinkKind.Bus⟩,
             Link.Rail ⟨0, 1, RailTime.new 1 10, 65 * 60⟩], 0⟩]⟩ := by
  decide

/-- C1: the spec claims Dijkstra optimality — after `compute_journeys`,
for every reachable destination `d`, `BestJourney[d].time` is at most
the §4.E cost of every alternative path from the origin.  The claim
fails on the code: in `cexG`, querying from station 0 at 00:00 with
contingency 0 and flexi-depart 0, the completed search (empty queue)
reports `BestJourney[2].time = 88800`, yet the valid alternative path
`cexPath` (stay on service 0 throughout) reaches station 2 at §4.E cost
2400.  The engine relaxes only from the stored best record at station 1
(reached faster via service 1), whose forced change onto service 0
costs a day of waiting. -/
theorem claim_C1_optimality_fails_at_cex :
    (computeState cexG 0 0 (RailTime.new 0 0) 0 50).map
        (fun st => ((st.nodes.getD 2 initBJ).time, st.visitq)) = some (88800, []) ∧
    (pathCost cexG 0 0 0 (RailTime.new 0 0) cexPath).map
        (fun ps => (ps.station, ps.time)) = some (2, 2400) ∧
    2400 < 88800 := by
  refine ⟨by decide, by decide, by decide⟩

/-- C4: the spec says a service that ends up with fewer than two stops
is skipped by the travel-graph builder, contributing no rail edges, and
graph construction completes without error.  A one-stop service is
indeed skipped, but a service whose stop list is empty (e.g. every stop
record named a TIPLOC unknown to the registry — `read_service_entry`
still returns and `read_mca_file` still retains such a service) makes
`TravelGraph::new` evaluate `service.stops.len() - 1` on a `usize`:
the subtraction underflows and the builder panics instead of
completing.  First conjunct: the empty-stops service makes construction
panic (`none`); second conjunct: the one-stop service is skipped and
construction succeeds with no rail edges. -/
theorem claim_C4_empty_service_panics :
    TravelGraph.new [⟨120⟩] [] ⟨[⟨0, []⟩]⟩ = none ∧
    TravelGraph.new [⟨120⟩] []
        ⟨[⟨0, [⟨0, RailTime.new 10 0, RailTime.new 10 0⟩]⟩]⟩ =
      some ⟨[⟨[], 120⟩]⟩ :=
  ⟨by decide, by decide⟩

/-- C5 counterexample: the claim says `timetil` wraps to the next day
whenever `t2 ≤ t1`, in particular returning a full day when `t2 = t1`.
The code wraps only on strict `t1.secs > t2.secs`: at `t1 = t2 = 00:00`
it returns `0`, not `86400`. -/
theorem claim_C5_counterexample :
    (RailTime.new 0 0).timetil (RailTime.new 0 0) = 0 ∧
    ¬ (RailTime.new 0 0).timetil (RailTime.new 0 0) = 24 * 60 * 60 :=
  ⟨by decide, by decide⟩

/-- C5 amended: for in-range clock times, `timetil t1 t2` is the
non-negative number of seconds from `t1` to `t2` (adding it to `t1`
lands on `t2`, and it is less than a day), it wraps to the next day
exactly when `t2` is strictly earlier than `t1`, and it is `0` when
`t2 = t1`. -/
theorem claim_C5_timetil_amended (t1 t2 : RailTime)
    (h1 : t1.secs < 24 * 60 * 60) (h2 : t2.secs < 24 * 60 * 60) :
    t1.add (t1.timetil t2) = t2 ∧
    t1.timetil t2 < 24 * 60 * 60 ∧
    (t2.secs < t1.secs → t1.timetil t2 = t2.secs + 24 * 60 * 60 - t1.secs) ∧
    (t1 = t2 → t1.timetil t2 = 0) := by
  obtain ⟨s1⟩ := t1
  obtain ⟨s2⟩ := t2
  dsimp only at h1 h2
  simp only [RailTime.add, RailTime.timetil, RailTime.mk.injEq]
  refine ⟨?_, ?_, ?_, ?_⟩
  · split <;> omega
  · split <;> omega
  · intro h
    split <;> omega
  · intro h
    split <;> omega

/-- C5 amended, witness at `t1 = 23:55`, `t2 = 00:20`. -/
theorem claim_C5_timetil_amended_witness :
    (RailTime.new 23 55).secs < 24 * 60 * 60 ∧
    (RailTime.new 0 20).secs < 24 * 60 * 60 ∧
    ((RailTime.new 23 55).add ((RailTime.new 23 55).timetil (RailTime.new 0 20)) =
        RailTime.new 0 20 ∧
      (RailTime.new 23 55).timetil (RailTime.new 0 20) < 24 * 60 * 60 ∧
      ((RailTime.new 0 20).secs < (RailTime.new 23 55).secs →
        (RailTime.new 23 55).timetil (RailTime.new 0 20) =
          (RailTime.new 0 20).secs + 24 * 60 * 60 - (RailTime.new 23 55).secs) ∧
      (RailTime.new 23 55 = RailTime.new 0 20 →
        (RailTime.new 23 55).timetil (RailTime.new 0 20) = 0)) :=
  ⟨by decide, by decide,
    claim_C5_timetil_amended (RailTime.new 23 55) (RailTime.new 0 20)
      (by decide) (by decide)⟩

/-- The canonical four-character `HHMM` rendering of an hour/minute
pair, via the same `{:02}` padding `to_24h` uses. -/
def hhmm (hh mm : Nat) : List Char := pad2 hh ++ pad2 mm

/-- C8: for every valid 24-hour `HHMM` string (hours below 24, minutes
below 60), `from_24h` returns `Some` and `to_24h` of that value is the
original string. -/
theorem claim_C8_roundtrip : ∀ hh < 24, ∀ mm < 60,
    (RailTime.from_24h (hhmm hh mm)).map RailTime.to_24h = some (hhmm hh mm) := by
  decide

/-- C8 witness at `"1234"`. -/
theorem claim_C8_roundtrip_witness :
    12 < 24 ∧ 34 < 60 ∧
    (RailTime.from_24h (hhmm 12 34)).map RailTime.to_24h = some (hhmm 12 34) :=
  ⟨by decide, by decide, claim_C8_roundtrip 12 (by decide) 34 (by decide)⟩

/-- The domain C10 claims for `from_24h`: four ASCII digits optionally
followed by one arbitrary trailing character.  Claim-side definition,
to be compared with `timeFormatMatch`, the guard taken from the source
(whose trailing `.` does not match a newline). -/
def claimedTimeFormat (cs : List Char) : Bool :=
  match cs with
  | [h1, h2, m1, m2] => h1.isDigit && h2.isDigit && m1.isDigit && m2.isDigit
  | [h1, h2, m1, m2, _] => h1.isDigit && h2.isDigit && m1.isDigit && m2.isDigit
  | _ => false

/-- C10 counterexample: `"1234\n"` is four ASCII digits followed by one
trailing character, yet `from_24h` rejects it — the `.` of
`^\d{2}\d{2}.?$` does not match a newline, so the trailing character is
not arbitrary. -/
theorem claim_C10_counterexample :
    claimedTimeFormat ['1', '2', '3', '4', '\n'] = true ∧
    RailTime.from_24h ['1', '2', '3', '4', '\n'] = none :=
  ⟨by decide, by decide⟩

/-- C10 amended: `from_24h` returns `Some` exactly when the input is
four ASCII digits optionally followed by one trailing character other
than a newline (`timeFormatMatch`); hours and minutes are not
range-checked, so `"9999"` succeeds and produces a `RailTime` whose
seconds value `362340` is at least `86400` and is not reduced modulo
`86400`. -/
theorem claim_C10_from24h_domain_amended :
    (∀ cs : List Char, (RailTime.from_24h cs).isSome = timeFormatMatch cs) ∧
    RailTime.from_24h ['9', '9', '9', '9'] = some ⟨362340⟩ ∧
    362340 ≥ 24 * 60 * 60 ∧ 362340 % (24 * 60 * 60) ≠ 362340 := by
  refine ⟨fun cs => ?_, by decide, by decide, by decide⟩
  by_cases h : timeFormatMatch cs <;> simp [RailTime.from_24h, h]

/-- Helper: reading back the element just written by `List.set`. -/
theorem getD_set_self {α : Type} : ∀ (l : List α) (i : Nat) (a d : α),
    i < l.length → (l.set i a).getD i d = a
  | [], i, _, _, h => absurd h (by simp)
  | _ :: _, 0, _, _, _ => rfl
  | _ :: xs, i + 1, a, d, h => getD_set_self xs i a d (by simpa using h)

/-- Helper: `List.set` leaves other positions unchanged. -/
theorem getD_set_ne {α : Type} : ∀ (l : List α) (i j : Nat) (a d : α),
    i ≠ j → (l.set i a).getD j d = l.getD j d
  | [], _, _, _, _, _ => rfl
  | _ :: _, 0, 0, _, _, h => absurd rfl h
  | _ :: _, 0, _ + 1, _, _, _ => rfl
  | _ :: _, _ + 1, 0, _, _, _ => rfl
  | _ :: xs, i + 1, j + 1, a, d, h =>
      getD_set_ne xs i j a d (fun hij => h (by simpa using hij))

/-- C6: in `visit_next`'s relaxation of a Rail link with departure
clock `d = rlink.depart` and duration `r = rlink.time` out of station
`u = tv.station` with change cost `C`: when the candidate improves the
destination, the wait `W` is `0` if `u` is the origin and
`BestJourney[u].depart.timetil(d) < flexi_depart`, and
`C + BestJourney[u].depart.add(C).timetil(d)` otherwise, and the
best-journey record written at the destination carries arrival time
`tv.time + W + r`, departure clock `d.add(r)`, predecessor `u` and the
link itself. -/
theorem claim_C6_rail_relaxation (st : TimeDijkstras) (tv : ToVisit)
    (rlink : RailLink) (rest : List Link) (xfer C W : Nat)
    (curtime : RailTime) (lastlink : Link)
    (hcur : curtime = (st.nodes.getD tv.station initBJ).depart)
    (hlast : lastlink = (st.nodes.getD tv.station initBJ).last_link)
    (hdst : rlink.dst < st.nodes.length)
    (hC : C = if lastlink.ischange (Link.Rail rlink) then xfer + st.contingency else 0)
    (hW : W = if tv.station = st.origin ∧ curtime.timetil rlink.depart < st.flexi_depart
          then 0
          else C + (curtime.add C).timetil rlink.depart)
    (himp : tv.time + W + rlink.time < (st.nodes.getD rlink.dst initBJ).time) :
    (visitLinks st tv curtime lastlink xfer (Link.Rail rlink :: rest)).nodes.getD
        rlink.dst initBJ =
      ⟨tv.time + W + rlink.time, rlink.depart.add rlink.time, tv.station,
        Link.Rail rlink⟩ := by
  have hWc : (if tv.station == st.origin &&
        decide (curtime.timetil rlink.depart < st.flexi_depart) then 0
      else (if lastlink.ischange (Link.Rail rlink) then xfer + st.contingency else 0) +
        (curtime.add (if lastlink.ischange (Link.Rail rlink) then
          xfer + st.contingency else 0)).timetil rlink.depart) = W := by
    rw [hW, hC]
    by_cases hfl : tv.station = st.origin ∧ curtime.timetil rlink.depart < st.flexi_depart
    · have hb : (tv.station == st.origin &&
          decide (curtime.timetil rlink.depart < st.flexi_depart)) = true := by
        simp [hfl.1, hfl.2]
      rw [hb, if_pos hfl]
      rfl
    · have hb : (tv.station == st.origin &&
          decide (curtime.timetil rlink.depart < st.flexi_depart)) = false := by
        simpa [Bool.and_eq_true, beq_iff_eq, decide_eq_true_eq] using hfl
      rw [hb, if_neg hfl]
      rfl
  simp only [visitLinks, hWc]
  rw [if_pos himp]
  exact getD_set_self st.nodes rlink.dst _ initBJ hdst

/-- C6 witness: a concrete improving rail relaxation out of the origin
with the flexi-depart window open (wait `0`). -/
theorem claim_C6_rail_relaxation_witness :
    (RailTime.new 0 5 = ((⟨[], 0, [⟨0, RailTime.new 0 5, 0, Link.Dummy⟩, initBJ],
        0, 3600⟩ : TimeDijkstras).nodes.getD 0 initBJ).depart) ∧
    (Link.Dummy = ((⟨[], 0, [⟨0, RailTime.new 0 5, 0, Link.Dummy⟩, initBJ],
        0, 3600⟩ : TimeDijkstras).nodes.getD 0 initBJ).last_link) ∧
    (1 < 2) ∧
    ((visitLinks ⟨[], 0, [⟨0, RailTime.new 0 5, 0, Link.Dummy⟩, initBJ], 0, 3600⟩
        ⟨0, 0⟩ (RailTime.new 0 5) Link.Dummy 120
        [Link.Rail ⟨1, 7, RailTime.new 0 10, 300⟩]).nodes.getD 1 initBJ =
      ⟨0 + 0 + 300, (RailTime.new 0 10).add 300, 0,
        Link.Rail ⟨1, 7, RailTime.new 0 10, 300⟩⟩) :=
  ⟨by decide, by decide, by decide,
    claim_C6_rail_relaxation
      ⟨[], 0, [⟨0, RailTime.new 0 5, 0, Link.Dummy⟩, initBJ], 0, 3600⟩
      ⟨0, 0⟩ ⟨1, 7, RailTime.new 0 10, 300⟩ [] 120 120 0
      (RailTime.new 0 5) Link.Dummy
      (by decide) (by decide) (by decide) (by decide) (by decide) (by decide)⟩

/-- Helper: `List.set` out of range is a no-op. -/
theorem set_oob {α : Type} : ∀ (l : List α) (i : Nat) (a : α),
    l.length ≤ i → l.set i a = l
  | [], _, _, _ => rfl
  | _ :: _, 0, _, h => absurd h (by simp)
  | x :: xs, i + 1, a, h =>
      congrArg (x :: ·) (set_oob xs i a (by simpa using h))

/-- Search-state invariant: every best-journey record has `time` at
most `u32::MAX`, and a record whose `time` still equals `u32::MAX` is
exactly the untouched `TimeDijkstras::new` default (`depart = 00:00`,
`last_station = 0`, `last_link = Dummy`). -/
def nodesOk (st : TimeDijkstras) : Prop :=
  ∀ i : Nat, (st.nodes.getD i initBJ).time ≤ u32MAX ∧
    ((st.nodes.getD i initBJ).time = u32MAX → st.nodes.getD i initBJ = initBJ)

/-- `update_best` with a strictly improving time preserves `nodesOk`. -/
theorem nodesOk_update_best (st : TimeDijkstras) (station t : Nat)
    (depart : RailTime) (last : Nat) (link : Link)
    (hok : nodesOk st) (ht : t < (st.nodes.getD station initBJ).time) :
    nodesOk (update_best st station t depart last link) := by
  intro i
  simp only [update_best]
  by_cases hlen : station < st.nodes.length
  · by_cases hi : station = i
    · subst hi
      rw [getD_set_self _ _ _ _ hlen]
      have hlt : t < u32MAX := lt_of_lt_of_le ht (hok station).1
      exact ⟨le_of_lt hlt, fun h => absurd (show t = u32MAX from h) (by omega)⟩
    · rw [getD_set_ne _ _ _ _ _ hi]
      exact hok i
  · rw [set_oob _ _ _ (le_of_not_lt hlen)]
    exact hok i

/-- Re-inserting a queue entry does not touch the node records. -/
theorem nodesOk_reinsert (st : TimeDijkstras) (tv : ToVisit)
    (h : nodesOk st) : nodesOk { st with visitq := tvInsert tv st.visitq } :=
  h

/-- One improving-or-skip step of the link scan preserves `nodesOk`,
whatever the candidate time `dt` and the fallback state are. -/
theorem nodesOk_branch (st : TimeDijkstras) (tv : ToVisit) (dst dt : Nat)
    (dep : RailTime) (last : Nat) (l : Link) (alt : TimeDijkstras)
    (hok : nodesOk st) (halt : nodesOk alt) :
    nodesOk (if dt < (st.nodes.getD dst initBJ).time then
      { update_best st dst dt dep last l with
        visitq := tvInsert tv (update_best st dst dt dep last l).visitq }
    else alt) := by
  split
  · next himp =>
      exact nodesOk_reinsert _ tv (nodesOk_update_best st dst dt dep last l hok himp)
  · exact halt

/-- The link-scanning loop of `visit_next` preserves `nodesOk`. -/
theorem nodesOk_visitLinks (st : TimeDijkstras) (tv : ToVisit)
    (curtime : RailTime) (lastlink : Link) (xfer : Nat) :
    ∀ links : List Link, nodesOk st →
      nodesOk (visitLinks st tv curtime lastlink xfer links) := by
  intro links
  induction links with
  | nil => exact fun h => h
  | cons l rest ih =>
      intro hok
      cases l with
      | Rail rlink =>
          simp only [visitLinks]
          exact nodesOk_branch st tv rlink.dst _ _ _ _ _ hok (ih hok)
      | Fixed flink =>
          simp only [visitLinks]
          exact nodesOk_branch st tv flink.dst _ _ _ _ _ hok (ih hok)
      | Dummy => exact ih hok

/-- `visit_next` preserves `nodesOk`. -/
theorem nodesOk_visit_next (g : TravelGraph) (st : TimeDijkstras)
    (tv : ToVisit) (hok : nodesOk st) : nodesOk (visit_next g st tv) :=
  nodesOk_visitLinks st tv _ _ _ _ hok

/-- The main loop preserves `nodesOk`. -/
theorem nodesOk_dloop (g : TravelGraph) :
    ∀ (fuel : Nat) (st st' : TimeDijkstras), nodesOk st →
      dloop g fuel st = some st' → nodesOk st' := by
  intro fuel
  induction fuel with
  | zero =>
      intro st st' hok h
      simp only [dloop] at h
      cases h
      exact hok
  | succ n ih =>
      intro st st' hok h
      simp only [dloop] at h
      split at h
      · cases h
        exact hok
      · split at h
        · split at h
          · refine ih _ _ ?_ h
            exact nodesOk_visit_next g _ _ (fun i => hok i)
          · cases h
        · refine ih _ _ ?_ h
          exact fun i => hok i

/-- Helper: every position of a replicated list reads back the
replicated element (also out of range, where the default is returned). -/
theorem getD_replicate {α : Type} (a : α) : ∀ (n i : Nat),
    (List.replicate n a).getD i a = a
  | 0, _ => rfl
  | _ + 1, 0 => rfl
  | n + 1, i + 1 => getD_replicate a n i

/-- The state `perform` seeds for a query satisfies `nodesOk`. -/
theorem nodesOk_start (n cont origin : Nat) (t0 : RailTime) :
    nodesOk ⟨[⟨origin, 0⟩], cont,
      (List.replicate n initBJ).set origin ⟨0, t0, origin, Link.Dummy⟩,
      origin, 0⟩ := by
  intro i
  by_cases hlen : origin < (List.replicate n initBJ).length
  · by_cases hi : origin = i
    · subst hi
      rw [getD_set_self _ _ _ _ hlen]
      exact ⟨by simp [u32MAX], fun h => absurd h (by simp [u32MAX])⟩
    · rw [getD_set_ne _ _ _ _ _ hi]
      rw [getD_replicate]
      exact ⟨le_refl _, fun _ => rfl⟩
  · rw [set_oob _ _ _ (le_of_not_lt hlen)]
    rw [getD_replicate]
    exact ⟨le_refl _, fun _ => rfl⟩

/-- A completed (or partial) run of the search loop started by
`computeState` satisfies `nodesOk`. -/
theorem nodesOk_computeState (g : TravelGraph) (cont origin : Nat)
    (t0 : RailTime) (flexi fuel : Nat) (st : TimeDijkstras)
    (h : computeState g cont origin t0 flexi fuel = some st) : nodesOk st := by
  have h0 : nodesOk ⟨[⟨origin, 0⟩], cont,
      (List.replicate g.stations.length initBJ).set origin
        ⟨0, t0, origin, Link.Dummy⟩, origin, flexi⟩ := by
    intro i
    exact nodesOk_start g.stations.length cont origin t0 i
  exact nodesOk_dloop g fuel _ st h0 h

/-- `backtrack` on the untouched default record exits at once: `Dummy`
predecessor, no links, departure clock 00:00. -/
theorem backtrack_initBJ (st : TimeDijkstras) :
    ∀ bfuel : Nat, backtrack st bfuel [] ⟨0⟩ initBJ = ([], ⟨0⟩, initBJ)
  | 0 => rfl
  | _ + 1 => rfl

/-- C2: for every destination left unreachable by the search (its best
time is still `u32::MAX`), `compute_journeys` returns — rather than
signalling an error — a `Journey` with `time = u32::MAX`, an empty link
list and `depart = 00:00`. -/
theorem claim_C2_unreachable_journey (g : TravelGraph)
    (cont origin : Nat) (t0 : RailTime) (flexi fuel : Nat)
    (st : TimeDijkstras) (d : Nat) (dests : List Nat) (bfuel : Nat)
    (hrun : computeState g cont origin t0 flexi fuel = some st)
    (hunreach : (st.nodes.getD d initBJ).time = u32MAX) :
    st.best_journey bfuel d = ⟨0, ⟨0⟩, u32MAX, []⟩ ∧
    g.compute_journeys t0 origin dests cont flexi fuel bfuel =
      some (dests.map (st.best_journey bfuel)) := by
  have hok := nodesOk_computeState g cont origin t0 flexi fuel st hrun
  have hrec : st.nodes.getD d initBJ = initBJ := (hok d).2 hunreach
  constructor
  · simp only [TimeDijkstras.best_journey, hrec]
    cases bfuel <;> rfl
  · simp only [TravelGraph.compute_journeys, hrun]
    rfl

/-- C2 witness: a two-station graph with no links queried from station
1, destination 0 unreachable. -/
theorem claim_C2_unreachable_journey_witness :
    computeState ⟨[⟨[], 0⟩, ⟨[], 0⟩]⟩ 0 1 ⟨0⟩ 0 5 =
      some ⟨[], 0, [initBJ, ⟨0, ⟨0⟩, 1, Link.Dummy⟩], 1, 0⟩ ∧
    (((⟨[], 0, [initBJ, ⟨0, ⟨0⟩, 1, Link.Dummy⟩], 1, 0⟩ :
        TimeDijkstras).nodes.getD 0 initBJ).time = u32MAX) ∧
    (TimeDijkstras.best_journey
        ⟨[], 0, [initBJ, ⟨0, ⟨0⟩, 1, Link.Dummy⟩], 1, 0⟩ 3 0 =
        ⟨0, ⟨0⟩, u32MAX, []⟩ ∧
      TravelGraph.compute_journeys ⟨[⟨[], 0⟩, ⟨[], 0⟩]⟩ ⟨0⟩ 1 [0] 0 0 5 3 =
        some ([0].map (TimeDijkstras.best_journey
          ⟨[], 0, [initBJ, ⟨0, ⟨0⟩, 1, Link.Dummy⟩], 1, 0⟩ 3))) :=
  ⟨by decide, by decide,
    claim_C2_unreachable_journey ⟨[⟨[], 0⟩, ⟨[], 0⟩]⟩ 0 1 ⟨0⟩ 0 5
      ⟨[], 0, [initBJ, ⟨0, ⟨0⟩, 1, Link.Dummy⟩], 1, 0⟩ 0 [0] 3
      (by decide) (by decide)⟩

/-- C9: for every destination whose best time is still `u32::MAX` after
the search, the returned `Journey` has `origin = 0` — the default
`last_station` of the untouched initial record — regardless of which
station the query actually started from. -/
theorem claim_C9_unreachable_origin_zero (g : TravelGraph)
    (cont origin : Nat) (t0 : RailTime) (flexi fuel : Nat)
    (st : TimeDijkstras) (d bfuel : Nat)
    (hrun : computeState g cont origin t0 flexi fuel = some st)
    (hunreach : (st.nodes.getD d initBJ).time = u32MAX) :
    (st.best_journey bfuel d).origin = 0 := by
  have hok := nodesOk_computeState g cont origin t0 flexi fuel st hrun
  have hrec : st.nodes.getD d initBJ = initBJ := (hok d).2 hunreach
  simp only [TimeDijkstras.best_journey, hrec]
  cases bfuel <;> rfl

/-- C9 witness: the query starts at station 1, yet the unreachable
destination's journey reports `origin = 0`. -/
theorem claim_C9_unreachable_origin_zero_witness :
    computeState ⟨[⟨[], 0⟩, ⟨[], 0⟩]⟩ 0 1 ⟨300⟩ 0 5 =
      some ⟨[], 0, [initBJ, ⟨0, ⟨300⟩, 1, Link.Dummy⟩], 1, 0⟩ ∧
    (((⟨[], 0, [initBJ, ⟨0, ⟨300⟩, 1, Link.Dummy⟩], 1, 0⟩ :
        TimeDijkstras).nodes.getD 0 initBJ).time = u32MAX) ∧
    (TimeDijkstras.best_journey
        ⟨[], 0, [initBJ, ⟨0, ⟨300⟩, 1, Link.Dummy⟩], 1, 0⟩ 7 0).origin = 0 :=
  ⟨by decide, by decide,
    claim_C9_unreachable_origin_zero ⟨[⟨[], 0⟩, ⟨[], 0⟩]⟩ 0 1 ⟨300⟩ 0 5
      ⟨[], 0, [initBJ, ⟨0, ⟨300⟩, 1, Link.Dummy⟩], 1, 0⟩ 0 7
      (by decide) (by decide)⟩

/-- A link destination indexes a station of the graph (`Dummy` has no
destination). -/
def linkDstOk (n : Nat) : Link → Bool
  | Link.Rail rl => rl.dst < n
  | Link.Fixed fl => fl.dst < n
  | Link.Dummy => true

/-- Graph validity: every edge of every node points at a station. -/
def validDsts (g : TravelGraph) : Prop :=
  ∀ node ∈ g.stations, ∀ l ∈ node.links, linkDstOk g.stations.length l = true

/-- The queue/label invariant of `perform`: the node table has one
record per station, and every queued `(station, time)` entry has a
valid station whose current best time is at most the entry's time —
the queue never holds a pair strictly better than the known best. -/
def dijOk (g : TravelGraph) (st : TimeDijkstras) : Prop :=
  st.nodes.length = g.stations.length ∧
  ∀ tv ∈ st.visitq, tv.station < g.stations.length ∧
    (st.nodes.getD tv.station initBJ).time ≤ tv.time

/-- Helper: membership after a `BTreeSet` insertion. -/
theorem mem_tvInsert {x y : ToVisit} :
    ∀ {l : List ToVisit}, y ∈ tvInsert x l → y = x ∨ y ∈ l := by
  intro l
  induction l with
  | nil =>
      intro h
      simp only [tvInsert, List.mem_singleton] at h
      exact Or.inl h
  | cons z zs ih =>
      intro h
      simp only [tvInsert] at h
      split at h
      · exact Or.inr h
      · split at h
        · rcases List.mem_cons.mp h with h1 | h1
          · exact Or.inl h1
          · exact Or.inr h1
        · rcases List.mem_cons.mp h with h1 | h1
          · exact Or.inr (h1 ▸ List.mem_cons_self z zs)
          · rcases ih h1 with h2 | h2
            · exact Or.inl h2
            · exact Or.inr (List.mem_cons_of_mem z h2)

/-- Helper: `List.set` preserves length (restatement for rewriting). -/
theorem length_set_eq {α : Type} (l : List α) (i : Nat) (a : α) :
    (l.set i a).length = l.length :=
  List.length_set l i a

/-- `dijOk` is preserved by one improving-or-skip step of the link
scan: the improving branch writes a strictly smaller label at a valid
destination and enqueues exactly that label (plus the popped entry),
the skip branch leaves a state already known good. -/
theorem dijOk_branch (g : TravelGraph) (st : TimeDijkstras) (tv : ToVisit)
    (dst dt : Nat) (dep : RailTime) (last : Nat) (l : Link)
    (alt : TimeDijkstras)
    (hok : dijOk g st)
    (htv : tv.station < g.stations.length)
    (htime : (st.nodes.getD tv.station initBJ).time ≤ tv.time)
    (hdst : dst < g.stations.length)
    (halt : dijOk g alt) :
    dijOk g (if dt < (st.nodes.getD dst initBJ).time then
      { update_best st dst dt dep last l with
        visitq := tvInsert tv (update_best st dst dt dep last l).visitq }
    else alt) := by
  split
  · next himp =>
      have hlen : dst < st.nodes.length := hok.1 ▸ hdst
      constructor
      · simpa [update_best, length_set_eq] using hok.1
      · intro y hy
        simp only [update_best] at hy ⊢
        have hmono : ∀ j : Nat,
            ((st.nodes.set dst ⟨dt, dep, last, l⟩).getD j initBJ).time ≤
              (st.nodes.getD j initBJ).time ∨
            (((st.nodes.set dst ⟨dt, dep, last, l⟩).getD j initBJ).time = dt ∧
              j = dst) := by
          intro j
          by_cases hj : dst = j
          · subst hj
            rw [getD_set_self _ _ _ _ hlen]
            exact Or.inr ⟨rfl, rfl⟩
          · rw [getD_set_ne _ _ _ _ _ hj]
            exact Or.inl (le_refl _)
        rcases mem_tvInsert hy with h1 | h1
        · rw [h1]
          refine ⟨htv, ?_⟩
          rcases hmono tv.station with h2 | h2
          · exact le_trans h2 htime
          · rw [h2.1]
            rw [h2.2] at htime
            exact le_trans (le_of_lt himp) htime
        · rcases mem_tvInsert h1 with h2 | h2
          · rw [h2]
            refine ⟨hdst, ?_⟩
            show ((st.nodes.set dst ⟨dt, dep, last, l⟩).getD dst initBJ).time ≤ dt
            rw [getD_set_self _ _ _ _ hlen]
          · refine ⟨(hok.2 y h2).1, ?_⟩
            rcases hmono y.station with h3 | h3
            · exact le_trans h3 (hok.2 y h2).2
            · rw [h3.1]
              have h4 := (hok.2 y h2).2
              rw [h3.2] at h4
              exact le_trans (le_of_lt himp) h4
  · exact halt

/-- The link scan preserves `dijOk` when every scanned link has a valid
destination and the popped entry's label is at least the current best. -/
theorem dijOk_visitLinks (g : TravelGraph) (st : TimeDijkstras)
    (tv : ToVisit) (curtime : RailTime) (lastlink : Link) (xfer : Nat) :
    ∀ links : List Link,
      (∀ l ∈ links, linkDstOk g.stations.length l = true) →
      dijOk g st →
      tv.station < g.stations.length →
      (st.nodes.getD tv.station initBJ).time ≤ tv.time →
      dijOk g (visitLinks st tv curtime lastlink xfer links) := by
  intro links
  induction links with
  | nil => exact fun _ hok _ _ => hok
  | cons l rest ih =>
      intro hsub hok htv htime
      have hrest : ∀ x ∈ rest, linkDstOk g.stations.length x = true :=
        fun x hx => hsub x (List.mem_cons_of_mem l hx)
      cases l with
      | Rail rlink =>
          have hdst : rlink.dst < g.stations.length := by
            have := hsub (Link.Rail rlink) (List.mem_cons_self _ _)
            simpa [linkDstOk] using this
          simp only [visitLinks]
          exact dijOk_branch g st tv rlink.dst _ _ _ _ _ hok htv htime hdst
            (ih hrest hok htv htime)
      | Fixed flink =>
          have hdst : flink.dst < g.stations.length := by
            have := hsub (Link.Fixed flink) (List.mem_cons_self _ _)
            simpa [linkDstOk] using this
          simp only [visitLinks]
          exact dijOk_branch g st tv flink.dst _ _ _ _ _ hok htv htime hdst
            (ih hrest hok htv htime)
      | Dummy => exact ih hrest hok htv htime

/-- Helper: `getD` at a valid index is a member of the list. -/
theorem getD_mem {α : Type} : ∀ (l : List α) (i : Nat) (d : α),
    i < l.length → l.getD i d ∈ l
  | [], _, _, h => absurd h (by simp)
  | _ :: _, 0, _, _ => List.mem_cons_self _ _
  | x :: xs, i + 1, d, h =>
      List.mem_cons_of_mem x (getD_mem xs i d (by simpa using h))

/-- `visit_next` preserves `dijOk` when the popped entry names a valid
station whose label is at least the current best. -/
theorem dijOk_visit_next (g : TravelGraph) (st : TimeDijkstras)
    (tv : ToVisit) (hval : validDsts g) (hok : dijOk g st)
    (htv : tv.station < g.stations.length)
    (htime : (st.nodes.getD tv.station initBJ).time ≤ tv.time) :
    dijOk g (visit_next g st tv) :=
  dijOk_visitLinks g st tv _ _ _ (g.stations.getD tv.station ⟨[], 0⟩).links
    (fun l hl => hval _ (getD_mem g.stations tv.station ⟨[], 0⟩ htv) l hl)
    hok htv htime

/-- Under `dijOk` the main loop never returns the assertion-failure
result: every popped entry whose time is at most the station's best is
exactly the best. -/
theorem dloop_isSome (g : TravelGraph) (hval : validDsts g) :
    ∀ (fuel : Nat) (st : TimeDijkstras), dijOk g st →
      (dloop g fuel st).isSome := by
  intro fuel
  induction fuel with
  | zero => intro st _; rfl
  | succ n ih =>
      intro st hok
      rcases hq : st.visitq with _ | ⟨tv, rest⟩
      · simp only [dloop, hq]
        rfl
      · have hbest := hok.2 tv (by rw [hq]; exact List.mem_cons_self _ _)
        have hok1 : dijOk g { st with visitq := rest } := by
          refine ⟨hok.1, ?_⟩
          intro y hy
          exact hok.2 y (by rw [hq]; exact List.mem_cons_of_mem tv hy)
        simp only [dloop, hq]
        by_cases hle : tv.time ≤ (st.nodes.getD tv.station initBJ).time
        · have heq2 : tv.time = (st.nodes.getD tv.station initBJ).time :=
            le_antisymm hle hbest.2
          rw [if_pos hle, if_pos heq2]
          exact ih _ (dijOk_visit_next g _ tv hval hok1 hbest.1 hbest.2)
        · rw [if_neg hle]
          exact ih _ hok1

/-- C3: on a well-formed graph (every link destination is a valid
station id, and the origin is a valid station), every `ToVisit` pair
popped by `perform` whose time does not exceed its station's current
best time equals that best time exactly — the queue never contains a
pair strictly better than the known best — so the main-loop
`assert_eq!` always holds and the search never aborts (`none`). -/
theorem claim_C3_no_assert_failure (g : TravelGraph) (cont origin : Nat)
    (t0 : RailTime) (flexi fuel : Nat)
    (hval : validDsts g) (horigin : origin < g.stations.length) :
    (computeState g cont origin t0 flexi fuel).isSome := by
  apply dloop_isSome g hval fuel
  refine ⟨?_, ?_⟩
  · simp [TimeDijkstras.new]
  · intro y hy
    have hy1 : y = ⟨origin, 0⟩ := by simpa using hy
    rw [hy1]
    refine ⟨horigin, ?_⟩
    have hlen : origin < (List.replicate g.stations.length initBJ).length := by
      simpa using horigin
    show (((List.replicate g.stations.length initBJ).set origin
        ⟨0, t0, origin, Link.Dummy⟩).getD origin initBJ).time ≤ 0
    rw [getD_set_self _ _ _ _ hlen]

/-- C3 witness: the assertion holds on a concrete valid graph run to
completion. -/
theorem claim_C3_no_assert_failure_witness :
    validDsts cexG ∧ 0 < cexG.stations.length ∧
    (computeState cexG 5 0 (RailTime.new 0 0) 0 50).isSome :=
  ⟨by simp only [validDsts]; decide, by decide,
    claim_C3_no_assert_failure cexG 5 0 (RailTime.new 0 0) 0 50
      (by simp only [validDsts]; decide) (by decide)⟩

/-- The directed `Fixed` edges station `s` receives from the input
fixed-link list, in insertion order (`a`-side push before `b`-side). -/
def fixedEdgesFor (s : Nat) (fls : List fixed_links.FixedLink) : List Link :=
  fls.flatMap (fun fl =>
    (if fl.a = s then [Link.Fixed ⟨fl.b, fl.time, fl.kind⟩] else []) ++
    (if fl.b = s then [Link.Fixed ⟨fl.a, fl.time, fl.kind⟩] else []))

/-- The rail edge a consecutive stop pair of service id `sid`
contributes to station `s`, if any. -/
def railEdgeOf (sid s : Nat) (p : Stop × Stop) : Option Link :=
  if p.1.station = s then
    some (Link.Rail ⟨p.2.station, sid, p.1.departure,
      p.1.departure.timetil p.2.arrival⟩)
  else
    none

/-- The rail edges service `sv` contributes to station `s`. -/
def railEdgesForService (s : Nat) (sv : Service) : List Link :=
  (stopPairs sv.stops).filterMap (railEdgeOf sv.id s)

/-- The rail edges all services contribute to station `s`. -/
def railEdgesFor (s : Nat) (svs : List Service) : List Link :=
  svs.flatMap (railEdgesForService s)

/-- `g'` extends `g` by appending `f s` to each station's link list,
preserving length and transfer times. -/
def addsLinks (g g' : List TGNode) (f : Nat → List Link) : Prop :=
  g'.length = g.length ∧
  ∀ s : Nat, (g'.getD s ⟨[], 0⟩).links = (g.getD s ⟨[], 0⟩).links ++ f s ∧
    (g'.getD s ⟨[], 0⟩).transfer_time = (g.getD s ⟨[], 0⟩).transfer_time

theorem addsLinks_refl (g : List TGNode) : addsLinks g g (fun _ => []) :=
  ⟨rfl, fun _ => ⟨(List.append_nil _).symm, rfl⟩⟩

theorem addsLinks_trans {g1 g2 g3 : List TGNode} {f1 f2 : Nat → List Link}
    (h1 : addsLinks g1 g2 f1) (h2 : addsLinks g2 g3 f2) :
    addsLinks g1 g3 (fun s => f1 s ++ f2 s) := by
  refine ⟨h2.1.trans h1.1, fun s => ⟨?_, ?_⟩⟩
  · rw [(h2.2 s).1, (h1.2 s).1, List.append_assoc]
  · rw [(h2.2 s).2, (h1.2 s).2]

theorem addsLinks_congr {g g' : List TGNode} {f1 f2 : Nat → List Link}
    (h : addsLinks g g' f1) (he : ∀ s, f1 s = f2 s) : addsLinks g g' f2 :=
  ⟨h.1, fun s => ⟨(h.2 s).1.trans (by rw [he s]), (h.2 s).2⟩⟩

/-- Helper: `getD` at a valid index via `get`. -/
theorem getD_eq_get {α : Type} (l : List α) (i : Nat) (d : α)
    (h : i < l.length) : l.getD i d = l.get ⟨i, h⟩ := by
  rw [List.getD_eq_getElem l d h, List.get_eq_getElem]

/-- A successful push appends exactly one link at exactly one station. -/
theorem addsLinks_pushLink {g g' : List TGNode} {i : Nat} {l : Link}
    (h : pushLink g i l = some g') :
    addsLinks g g' (fun s => if i = s then [l] else []) := by
  unfold pushLink at h
  split at h
  · next hi =>
      injection h with h
      subst h
      refine ⟨List.length_set _ _ _, fun s => ?_⟩
      by_cases hs : i = s
      · subst hs
        rw [getD_set_self _ _ _ _ hi]
        refine ⟨?_, ?_⟩
        · show (g.get ⟨i, hi⟩).links ++ [l] =
            (g.getD i ⟨[], 0⟩).links ++ (if i = i then [l] else [])
          rw [if_pos rfl, getD_eq_get g i _ hi]
        · show (g.get ⟨i, hi⟩).transfer_time =
            (g.getD i ⟨[], 0⟩).transfer_time
          rw [getD_eq_get g i _ hi]
      · rw [getD_set_ne _ _ _ _ _ hs]
        refine ⟨?_, rfl⟩
        show (g.getD s ⟨[], 0⟩).links =
          (g.getD s ⟨[], 0⟩).links ++ (if i = s then [l] else [])
        rw [if_neg hs, List.append_nil]
  · cases h

/-- A successful push certifies the index and preserves the length. -/
theorem pushLink_lt {g g' : List TGNode} {i : Nat} {l : Link}
    (h : pushLink g i l = some g') : i < g.length ∧ g'.length = g.length := by
  unfold pushLink at h
  split at h
  · next hi =>
      injection h with h
      subst h
      exact ⟨hi, List.length_set _ _ _⟩
  · cases h

/-- The fixed-link loop appends exactly `fixedEdgesFor`. -/
theorem addsLinks_addFixedLinks : ∀ (fls : List fixed_links.FixedLink)
    (g g' : List TGNode), addFixedLinks g fls = some g' →
    addsLinks g g' (fun s => fixedEdgesFor s fls) := by
  intro fls
  induction fls with
  | nil =>
      intro g g' h
      injection h with h
      subst h
      exact addsLinks_congr (addsLinks_refl g) (fun s => rfl)
  | cons fl rest ih =>
      intro g g' h
      simp only [addFixedLinks] at h
      rcases hp1 : pushLink g fl.a (Link.Fixed ⟨fl.b, fl.time, fl.kind⟩) with _ | g1
      · simp only [hp1] at h; cases h
      · simp only [hp1] at h
        rcases hp2 : pushLink g1 fl.b (Link.Fixed ⟨fl.a, fl.time, fl.kind⟩) with _ | g2
        · simp only [hp2] at h; cases h
        · simp only [hp2] at h
          refine addsLinks_congr
            (addsLinks_trans (addsLinks_trans (addsLinks_pushLink hp1)
              (addsLinks_pushLink hp2)) (ih g2 g' h)) (fun s => ?_)
          simp only [fixedEdgesFor, List.flatMap_cons]

/-- Bounds from a successful fixed-link loop. -/
theorem addFixedLinks_bounds : ∀ (fls : List fixed_links.FixedLink)
    (g g' : List TGNode), addFixedLinks g fls = some g' →
    ∀ fl ∈ fls, fl.a < g.length ∧ fl.b < g.length := by
  intro fls
  induction fls with
  | nil => intro g g' _ fl hfl; cases hfl
  | cons fl0 rest ih =>
      intro g g' h fl hfl
      simp only [addFixedLinks] at h
      rcases hp1 : pushLink g fl0.a (Link.Fixed ⟨fl0.b, fl0.time, fl0.kind⟩) with _ | g1
      · simp only [hp1] at h; cases h
      · simp only [hp1] at h
        rcases hp2 : pushLink g1 fl0.b (Link.Fixed ⟨fl0.a, fl0.time, fl0.kind⟩) with _ | g2
        · simp only [hp2] at h; cases h
        · simp only [hp2] at h
          have e1 := pushLink_lt hp1
          have e2 := pushLink_lt hp2
          rcases List.mem_cons.mp hfl with h1 | h1
          · subst h1
            exact ⟨e1.1, e1.2 ▸ e2.1⟩
          · have := ih g2 g' h fl h1
            rw [e2.2, e1.2] at this
            exact this

/-- The per-service pair loop appends exactly the pair contributions. -/
theorem addsLinks_addRailPairs (sid : Nat) : ∀ (ps : List (Stop × Stop))
    (g g' : List TGNode), addRailPairs sid g ps = some g' →
    addsLinks g g' (fun s => ps.filterMap (railEdgeOf sid s)) := by
  intro ps
  induction ps with
  | nil =>
      intro g g' h
      injection h with h
      subst h
      exact addsLinks_congr (addsLinks_refl g) (fun s => rfl)
  | cons p rest ih =>
      intro g g' h
      obtain ⟨s1, s2⟩ := p
      simp only [addRailPairs] at h
      rcases hp : pushLink g s1.station
          (Link.Rail ⟨s2.station, sid, s1.departure,
            s1.departure.timetil s2.arrival⟩) with _ | g1
      · simp only [hp] at h; cases h
      · simp only [hp] at h
        refine addsLinks_congr
          (addsLinks_trans (addsLinks_pushLink hp) (ih g1 g' h)) (fun s => ?_)
        by_cases hs : s1.station = s
        · simp [railEdgeOf, List.filterMap_cons, hs]
        · simp [railEdgeOf, List.filterMap_cons, hs]

/-- Bounds from a successful pair loop. -/
theorem addRailPairs_bounds (sid : Nat) : ∀ (ps : List (Stop × Stop))
    (g g' : List TGNode), addRailPairs sid g ps = some g' →
    g'.length = g.length ∧ ∀ p ∈ ps, p.1.station < g.length := by
  intro ps
  induction ps with
  | nil =>
      intro g g' h
      injection h with h
      subst h
      exact ⟨rfl, fun p hp => absurd hp (List.not_mem_nil p)⟩
  | cons p rest ih =>
      intro g g' h
      obtain ⟨s1, s2⟩ := p
      simp only [addRailPairs] at h
      rcases hp : pushLink g s1.station
          (Link.Rail ⟨s2.station, sid, s1.departure,
            s1.departure.timetil s2.arrival⟩) with _ | g1
      · simp only [hp] at h; cases h
      · simp only [hp] at h
        have e1 := pushLink_lt hp
        have e2 := ih g1 g' h
        refine ⟨e2.1.trans e1.2, fun q hq => ?_⟩
        rcases List.mem_cons.mp hq with h1 | h1
        · rw [h1]
          exact e1.1
        · exact e1.2 ▸ e2.2 q h1

/-- One service appends exactly its per-station rail edges. -/
theorem addsLinks_addService {g g' : List TGNode} {sv : Service}
    (h : addService g sv = some g') :
    addsLinks g g' (fun s => railEdgesForService s sv) := by
  unfold addService at h
  split at h
  · cases h
  · exact addsLinks_addRailPairs sv.id _ g g' h

/-- The service loop appends exactly `railEdgesFor`. -/
theorem addsLinks_addServices : ∀ (svs : List Service)
    (g g' : List TGNode), addServices g svs = some g' →
    addsLinks g g' (fun s => railEdgesFor s svs) := by
  intro svs
  induction svs with
  | nil =>
      intro g g' h
      injection h with h
      subst h
      exact addsLinks_congr (addsLinks_refl g) (fun s => rfl)
  | cons sv rest ih =>
      intro g g' h
      simp only [addServices] at h
      rcases hsv : addService g sv with _ | g1
      · simp only [hsv] at h; cases h
      · simp only [hsv] at h
        refine addsLinks_congr
          (addsLinks_trans (addsLinks_addService hsv) (ih g1 g' h)) (fun s => ?_)
        simp only [railEdgesFor, List.flatMap_cons]

/-- Bounds from a successful service loop. -/
theorem addServices_bounds : ∀ (svs : List Service)
    (g g' : List TGNode), addServices g svs = some g' →
    g'.length = g.length ∧
    ∀ sv ∈ svs, ∀ p ∈ stopPairs sv.stops, p.1.station < g.length := by
  intro svs
  induction svs with
  | nil =>
      intro g g' h
      injection h with h
      subst h
      exact ⟨rfl, fun sv hsv => absurd hsv (List.not_mem_nil sv)⟩
  | cons sv rest ih =>
      intro g g' h
      simp only [addServices] at h
      rcases hsv : addService g sv with _ | g1
      · simp only [hsv] at h; cases h
      · simp only [hsv] at h
        have e2 := ih g1 g' h
        have e1 : g1.length = g.length ∧ ∀ p ∈ stopPairs sv.stops,
            p.1.station < g.length := by
          unfold addService at hsv
          split at hsv
          · cases hsv
          · exact addRailPairs_bounds sv.id _ g g1 hsv
        refine ⟨e2.1.trans e1.1, fun sv' hsv' p hp => ?_⟩
        rcases List.mem_cons.mp hsv' with h1 | h1
        · exact e1.2 p (h1 ▸ hp)
        · exact e1.1 ▸ e2.2 sv' h1 p hp

/-- The freshly allocated node table has empty link lists. -/
theorem getD_map_links (sl : List Station) : ∀ s : Nat,
    ((sl.map (fun st =>
      ({ links := [], transfer_time := st.min_change_time } : TGNode))).getD
        s ⟨[], 0⟩).links = [] := by
  induction sl with
  | nil => intro s; cases s <;> rfl
  | cons st rest ih =>
      intro s
      cases s with
      | zero => rfl
      | succ n => exact ih n

/-- Characterisation of a successfully built travel graph: one node per
station and, per station, the fixed edges then the rail edges in
insertion order. -/
theorem new_links {sl : List Station} {fls : List fixed_links.FixedLink}
    {tt : Timetable} {g : TravelGraph}
    (h : TravelGraph.new sl fls tt = some g) :
    g.stations.length = sl.length ∧
    ∀ s : Nat, (g.stations.getD s ⟨[], 0⟩).links =
      fixedEdgesFor s fls ++ railEdgesFor s tt.services := by
  unfold TravelGraph.new at h
  rcases h1 : addFixedLinks (sl.map (fun st =>
      ({ links := [], transfer_time := st.min_change_time } : TGNode))) fls
    with _ | g1
  · simp only [h1] at h; cases h
  · simp only [h1] at h
    rcases h2 : addServices g1 tt.services with _ | g2
    · simp only [h2] at h; cases h
    · simp only [h2] at h
      injection h with h
      subst h
      have a1 := addsLinks_addFixedLinks fls _ g1 h1
      have a2 := addsLinks_addServices tt.services g1 g2 h2
      have a3 := addsLinks_trans a1 a2
      constructor
      · show g2.length = sl.length
        rw [a3.1, List.length_map]
      · intro s
        show (g2.getD s ⟨[], 0⟩).links = _
        rw [(a3.2 s).1, getD_map_links]
        rfl

/-- Is this link a rail edge of service `sid`? -/
def isRailOf (sid : Nat) : Link → Bool
  | Link.Rail rl => rl.service == sid
  | _ => false

/-- Is this link a fixed edge? -/
def isFixedLink : Link → Bool
  | Link.Fixed _ => true
  | _ => false

/-- Number of rail edges of service `sid` over the whole graph. -/
def countRailEdges (g : TravelGraph) (sid : Nat) : Nat :=
  (g.stations.flatMap TGNode.links).countP (isRailOf sid)

/-- Number of directed fixed edges over the whole graph. -/
def countFixedEdges (g : TravelGraph) : Nat :=
  (g.stations.flatMap TGNode.links).countP isFixedLink

/-- Counting over all adjacency lists equals the sum of per-station
counts. -/
theorem countP_flatMap_links (p : Link → Bool) : ∀ L : List TGNode,
    (L.flatMap TGNode.links).countP p =
      ∑ s ∈ Finset.range L.length, ((L.getD s ⟨[], 0⟩).links.countP p) := by
  intro L
  induction L with
  | nil => rfl
  | cons x xs ih =>
      rw [List.flatMap_cons, List.countP_append, ih,
        show (x :: xs).length = xs.length + 1 from rfl, Finset.sum_range_succ']
      exact Nat.add_comm _ _

/-- Shape of the members of `fixedEdgesFor`. -/
theorem mem_fixedEdgesFor {l : Link} {s : Nat}
    {fls : List fixed_links.FixedLink} (h : l ∈ fixedEdgesFor s fls) :
    ∃ fl ∈ fls, (l = Link.Fixed ⟨fl.b, fl.time, fl.kind⟩ ∧ fl.a = s) ∨
      (l = Link.Fixed ⟨fl.a, fl.time, fl.kind⟩ ∧ fl.b = s) := by
  rcases List.mem_flatMap.mp h with ⟨fl, hfl, hmem⟩
  refine ⟨fl, hfl, ?_⟩
  rcases List.mem_append.mp hmem with h1 | h1
  · by_cases ha : fl.a = s
    · rw [if_pos ha] at h1
      exact Or.inl ⟨List.mem_singleton.mp h1, ha⟩
    · rw [if_neg ha] at h1
      exact absurd h1 (List.not_mem_nil l)
  · by_cases hb : fl.b = s
    · rw [if_pos hb] at h1
      exact Or.inr ⟨List.mem_singleton.mp h1, hb⟩
    · rw [if_neg hb] at h1
      exact absurd h1 (List.not_mem_nil l)

/-- Shape of the members of `railEdgesFor`. -/
theorem mem_railEdgesFor {l : Link} {s : Nat} {svs : List Service}
    (h : l ∈ railEdgesFor s svs) :
    ∃ sv ∈ svs, ∃ p ∈ stopPairs sv.stops, p.1.station = s ∧
      l = Link.Rail ⟨p.2.station, sv.id, p.1.departure,
        p.1.departure.timetil p.2.arrival⟩ := by
  rcases List.mem_flatMap.mp h with ⟨sv, hsv, hmem⟩
  rcases List.mem_filterMap.mp hmem with ⟨p, hp, he⟩
  refine ⟨sv, hsv, p, hp, ?_⟩
  unfold railEdgeOf at he
  split at he
  · next hst =>
      injection he with he
      exact ⟨hst, he.symm⟩
  · cases he

/-- A service's contribution to a station, counted as stop pairs
departing there. -/
theorem length_railEdgesForService (s : Nat) (sv : Service) :
    (railEdgesForService s sv).length =
      (stopPairs sv.stops).countP (fun p => p.1.station == s) := by
  unfold railEdgesForService
  generalize stopPairs sv.stops = ps
  induction ps with
  | nil => rfl
  | cons p rest ih =>
      by_cases hs : p.1.station = s
      · simp [List.filterMap_cons, railEdgeOf, hs, List.countP_cons, ih]
      · simp [List.filterMap_cons, railEdgeOf, hs, List.countP_cons, ih]

/-- Every member of a service's contribution is a rail edge of that
service's id. -/
theorem mem_railEdgesForService_shape {l : Link} {s : Nat} {sv : Service}
    (h : l ∈ railEdgesForService s sv) :
    ∃ rl : RailLink, l = Link.Rail rl ∧ rl.service = sv.id := by
  rcases List.mem_filterMap.mp h with ⟨p, _, he⟩
  unfold railEdgeOf at he
  split at he
  · injection he with he
    exact ⟨_, he.symm, rfl⟩
  · cases he

/-- Summing a station-indicator count over all stations counts every
pair once, provided each pair departs from a valid station. -/
theorem sum_countP_station {n : Nat} : ∀ ps : List (Stop × Stop),
    (∀ p ∈ ps, p.1.station < n) →
    ∑ s ∈ Finset.range n, ps.countP (fun p => p.1.station == s) = ps.length := by
  intro ps
  induction ps with
  | nil => simp
  | cons p rest ih =>
      intro hb
      have hp := hb p (List.mem_cons_self _ _)
      have hr := ih (fun q hq => hb q (List.mem_cons_of_mem p hq))
      simp only [List.countP_cons]
      rw [Finset.sum_add_distrib, hr]
      have hone : ∑ s ∈ Finset.range n,
          (if (fun q => q.1.station == s) p = true then 1 else 0) = 1 := by
        have : ∀ s : Nat, (if (fun q => q.1.station == s) p = true then 1 else 0) =
            (if p.1.station = s then 1 else 0) := by
          intro s
          by_cases hs : p.1.station = s
          · simp [hs]
          · simp [hs]
        rw [Finset.sum_congr rfl (fun s _ => this s), Finset.sum_ite_eq]
        simp [Finset.mem_range.mpr hp]
      rw [hone]
      simp

/-- Each fixed link contributes exactly two directed edges over all
stations. -/
theorem sum_length_fixedEdgesFor {n : Nat} : ∀ fls : List fixed_links.FixedLink,
    (∀ fl ∈ fls, fl.a < n ∧ fl.b < n) →
    ∑ s ∈ Finset.range n, (fixedEdgesFor s fls).length = 2 * fls.length := by
  intro fls
  induction fls with
  | nil => simp [fixedEdgesFor]
  | cons fl rest ih =>
      intro hb
      have hfl := hb fl (List.mem_cons_self _ _)
      have hr := ih (fun q hq => hb q (List.mem_cons_of_mem fl hq))
      have hsplit : ∀ s : Nat, (fixedEdgesFor s (fl :: rest)).length =
          ((if fl.a = s then 1 else 0) + (if fl.b = s then 1 else 0)) +
            (fixedEdgesFor s rest).length := by
        intro s
        simp only [fixedEdgesFor, List.flatMap_cons, List.length_append]
        congr 1
        by_cases ha : fl.a = s <;> by_cases hc : fl.b = s <;>
          simp [ha, hc]
      rw [Finset.sum_congr rfl (fun s _ => hsplit s), Finset.sum_add_distrib,
        Finset.sum_add_distrib, hr, Finset.sum_ite_eq, Finset.sum_ite_eq]
      simp only [Finset.mem_range.mpr hfl.1, Finset.mem_range.mpr hfl.2,
        if_pos, if_true]
      simp only [List.length_cons]
      ring

/-- A different service's contribution never counts for `sid`. -/
theorem countP_railEdgesForService_ne {sid s : Nat} {sv : Service}
    (hne : sv.id ≠ sid) :
    (railEdgesForService s sv).countP (isRailOf sid) = 0 := by
  rw [List.countP_eq_zero]
  intro l hl
  rcases mem_railEdgesForService_shape hl with ⟨rl, he, hid⟩
  subst he
  simp [isRailOf, hid, hne]

/-- A service's own contribution counts all its pairs departing `s`. -/
theorem countP_railEdgesForService_self {s : Nat} {sv : Service} :
    (railEdgesForService s sv).countP (isRailOf sv.id) =
      (stopPairs sv.stops).countP (fun p => p.1.station == s) := by
  rw [← length_railEdgesForService]
  apply List.countP_eq_length.mpr
  intro l hl
  rcases mem_railEdgesForService_shape hl with ⟨rl, he, hid⟩
  subst he
  simp [isRailOf, hid]

/-- Fixed edges never count as rail edges of any service. -/
theorem countP_fixedEdgesFor_rail {sid s : Nat}
    {fls : List fixed_links.FixedLink} :
    (fixedEdgesFor s fls).countP (isRailOf sid) = 0 := by
  rw [List.countP_eq_zero]
  intro l hl
  rcases mem_fixedEdgesFor hl with ⟨fl, _, h1 | h1⟩ <;>
    · rw [h1.1]
      simp [isRailOf]

/-- Rail edges never count as fixed edges. -/
theorem countP_railEdgesFor_fixed {s : Nat} {svs : List Service} :
    (railEdgesFor s svs).countP isFixedLink = 0 := by
  rw [List.countP_eq_zero]
  intro l hl
  rcases mem_railEdgesFor hl with ⟨sv, _, p, _, _, he⟩
  rw [he]
  simp [isFixedLink]

/-- Every fixed edge counts as fixed. -/
theorem countP_fixedEdgesFor_fixed {s : Nat}
    {fls : List fixed_links.FixedLink} :
    (fixedEdgesFor s fls).countP isFixedLink = (fixedEdgesFor s fls).length := by
  apply List.countP_eq_length.mpr
  intro l hl
  rcases mem_fixedEdgesFor hl with ⟨fl, _, h1 | h1⟩ <;>
    · rw [h1.1]
      simp [isFixedLink]

/-- With pairwise-distinct service ids, the whole-timetable rail count
for `sv.id` reduces to `sv`'s own contribution. -/
theorem countP_railEdgesFor_single {s : Nat} : ∀ (svs : List Service)
    (sv : Service), sv ∈ svs → svs.Pairwise (fun a b => a.id ≠ b.id) →
    (railEdgesFor s svs).countP (isRailOf sv.id) =
      (stopPairs sv.stops).countP (fun p => p.1.station == s) := by
  intro svs
  induction svs with
  | nil => intro sv hsv _; cases hsv
  | cons sv0 rest ih =>
      intro sv hsv hpw
      have hpw' := List.pairwise_cons.mp hpw
      have hsplit : railEdgesFor s (sv0 :: rest) =
          railEdgesForService s sv0 ++ railEdgesFor s rest := by
        simp [railEdgesFor, List.flatMap_cons]
      rw [hsplit, List.countP_append]
      rcases List.mem_cons.mp hsv with h1 | h1
      · subst h1
        rw [countP_railEdgesForService_self]
        have hz : (railEdgesFor s rest).countP (isRailOf sv.id) = 0 := by
          rw [List.countP_eq_zero]
          intro l hl
          rcases mem_railEdgesFor hl with ⟨sv', hsv', p, _, _, he⟩
          rw [he]
          have hne : sv'.id ≠ sv.id := fun hc => hpw'.1 sv' hsv' hc.symm
          simp [isRailOf, hne]
        rw [hz]
        omega
      · have hne : sv0.id ≠ sv.id := hpw'.1 sv h1
        rw [ih sv h1 hpw'.2, countP_railEdgesForService_ne hne]
        omega

/-- Index bounds certified by a successful graph build. -/
theorem new_bounds {sl : List Station} {fls : List fixed_links.FixedLink}
    {tt : Timetable} {g : TravelGraph}
    (h : TravelGraph.new sl fls tt = some g) :
    (∀ fl ∈ fls, fl.a < sl.length ∧ fl.b < sl.length) ∧
    ∀ sv ∈ tt.services, ∀ p ∈ stopPairs sv.stops, p.1.station < sl.length := by
  unfold TravelGraph.new at h
  rcases h1 : addFixedLinks (sl.map (fun st =>
      ({ links := [], transfer_time := st.min_change_time } : TGNode))) fls
    with _ | g1
  · simp only [h1] at h; cases h
  · simp only [h1] at h
    rcases h2 : addServices g1 tt.services with _ | g2
    · simp only [h2] at h; cases h
    · have hb1 := addFixedLinks_bounds fls _ g1 h1
      have hb2 := addServices_bounds tt.services g1 g2 h2
      have hlen1 : g1.length = sl.length := by
        rw [(addsLinks_addFixedLinks fls _ g1 h1).1, List.length_map]
      constructor
      · intro fl hfl
        have := hb1 fl hfl
        rwa [List.length_map] at this
      · intro sv hsv p hp
        have := hb2.2 sv hsv p hp
        rwa [hlen1] at this

/-- C7: for any successfully built travel graph with pairwise-distinct
service ids: every rail edge in any node's adjacency comes from a
consecutive stop pair `(s_i, s_{i+1})` of some service, with
`dst = s_{i+1}.station` and `time = s_i.departure.timetil(s_{i+1}.arrival)`;
each service contributes exactly `len(stops) − 1` rail edges in total;
and the input fixed links contribute exactly `2·|fixedlinks|` directed
fixed edges, with each input link present once in each endpoint's
adjacency list. -/
theorem claim_C7_graph_invariants {sl : List Station}
    {fls : List fixed_links.FixedLink} {tt : Timetable} {g : TravelGraph}
    (hbuild : TravelGraph.new sl fls tt = some g)
    (hids : tt.services.Pairwise (fun a b => a.id ≠ b.id)) :
    (∀ s : Nat, ∀ l ∈ (g.stations.getD s ⟨[], 0⟩).links,
      ∀ rl : RailLink, l = Link.Rail rl →
        ∃ sv ∈ tt.services, ∃ p ∈ stopPairs sv.stops,
          p.1.station = s ∧
          rl = ⟨p.2.station, sv.id, p.1.departure,
                p.1.departure.timetil p.2.arrival⟩) ∧
    (∀ sv ∈ tt.services, countRailEdges g sv.id = sv.stops.length - 1) ∧
    countFixedEdges g = 2 * fls.length ∧
    (∀ fl ∈ fls,
      Link.Fixed ⟨fl.b, fl.time, fl.kind⟩ ∈
        (g.stations.getD fl.a ⟨[], 0⟩).links ∧
      Link.Fixed ⟨fl.a, fl.time, fl.kind⟩ ∈
        (g.stations.getD fl.b ⟨[], 0⟩).links) := by
  have hchar := new_links hbuild
  have hb := new_bounds hbuild
  refine ⟨?_, ?_, ?_, ?_⟩
  · intro s l hl rl he
    subst he
    rw [hchar.2 s] at hl
    rcases List.mem_append.mp hl with h1 | h1
    · rcases mem_fixedEdgesFor h1 with ⟨fl, _, h2 | h2⟩ <;> cases h2.1
    · rcases mem_railEdgesFor h1 with ⟨sv, hsv, p, hp, hst, he2⟩
      injection he2 with he2
      exact ⟨sv, hsv, p, hp, hst, he2⟩
  · intro sv hsv
    unfold countRailEdges
    rw [countP_flatMap_links, hchar.1]
    have hper : ∀ s : Nat, ((g.stations.getD s ⟨[], 0⟩).links.countP
        (isRailOf sv.id)) =
        (stopPairs sv.stops).countP (fun p => p.1.station == s) := by
      intro s
      rw [hchar.2 s, List.countP_append, countP_fixedEdgesFor_rail,
        countP_railEdgesFor_single tt.services sv hsv hids]
      omega
    rw [Finset.sum_congr rfl (fun s _ => hper s),
      sum_countP_station (stopPairs sv.stops) (hb.2 sv hsv)]
    simp only [stopPairs, List.length_zip, List.length_tail]
    omega
  · unfold countFixedEdges
    rw [countP_flatMap_links, hchar.1]
    have hper : ∀ s : Nat, ((g.stations.getD s ⟨[], 0⟩).links.countP
        isFixedLink) = (fixedEdgesFor s fls).length := by
      intro s
      rw [hchar.2 s, List.countP_append, countP_railEdgesFor_fixed,
        countP_fixedEdgesFor_fixed]
      omega
    rw [Finset.sum_congr rfl (fun s _ => hper s),
      sum_length_fixedEdgesFor fls hb.1]
  · intro fl hfl
    constructor
    · rw [hchar.2 fl.a]
      apply List.mem_append.mpr
      left
      apply List.mem_flatMap.mpr
      exact ⟨fl, hfl, List.mem_append.mpr (Or.inl (by simp))⟩
    · rw [hchar.2 fl.b]
      apply List.mem_append.mpr
      left
      apply List.mem_flatMap.mpr
      exact ⟨fl, hfl, List.mem_append.mpr (Or.inr (by simp))⟩

/-- C7 witness inputs: the two-station, one-fixed-link, two-service
example of `test_simple_graph`. -/
def wSL : List Station := [⟨0⟩, ⟨0⟩]

/-- C7 witness fixed links. -/
def wFL : List fixed_links.FixedLink := [⟨0, 1, 300, FixedLinkKind.Bus⟩]

/-- C7 witness timetable. -/
def wTT : Timetable :=
  ⟨[⟨0, [⟨0, RailTime.new 0 0, RailTime.new 0 0⟩,
         ⟨1, RailTime.new 1 0, RailTime.new 1 0⟩]⟩,
    ⟨1, [⟨1, RailTime.new 1 10, RailTime.new 1 10⟩,
         ⟨0, RailTime.new 2 15, RailTime.new 2 15⟩]⟩]⟩

/-- C7 witness graph (the successful build result). -/
def wG : TravelGraph :=
  ⟨[⟨[Link.Fixed ⟨1, 300, FixedLinkKind.Bus⟩,
      Link.Rail ⟨1, 0, RailTime.new 0 0, 3600⟩], 0⟩,
    ⟨[Link.Fixed ⟨0, 300, FixedLinkKind.Bus⟩,
      Link.Rail ⟨0, 1, RailTime.new 1 10, 3900⟩], 0⟩]⟩

/-- C7 witness: both hypotheses discharged on the concrete build. -/
theorem claim_C7_graph_invariants_witness :
    TravelGraph.new wSL wFL wTT = some wG ∧
    List.Pairwise (fun a b => a.id ≠ b.id) wTT.services ∧
    ((∀ s : Nat, ∀ l ∈ (wG.stations.getD s ⟨[], 0⟩).links,
      ∀ rl : RailLink, l = Link.Rail rl →
        ∃ sv ∈ wTT.services, ∃ p ∈ stopPairs sv.stops,
          p.1.station = s ∧
          rl = ⟨p.2.station, sv.id, p.1.departure,
                p.1.departure.timetil p.2.arrival⟩) ∧
    (∀ sv ∈ wTT.services, countRailEdges wG sv.id = sv.stops.length - 1) ∧
    countFixedEdges wG = 2 * wFL.length ∧
    (∀ fl ∈ wFL,
      Link.Fixed ⟨fl.b, fl.time, fl.kind⟩ ∈
        (wG.stations.getD fl.a ⟨[], 0⟩).links ∧
      Link.Fixed ⟨fl.a, fl.time, fl.kind⟩ ∈
        (wG.stations.getD fl.b ⟨[], 0⟩).links)) :=
  ⟨by decide, by decide,
    @claim_C7_graph_invariants wSL wFL wTT wG (by decide) (by decide)⟩
